import Mathlib

/-!
Shallow embedding of `randomdict.py` (class `RandomDict`, a `MutableMapping`
backed by a key-to-index dict `_keys`, a dense list `_values` of
`(key, value)` pairs, and an integer `last_index`), together with the
inherited `collections.abc.MutableMapping` methods the repository relies on
(`update`, `popitem`, `pop`, mapping equality).

Python dicts are embedded as association lists with insertion-order
semantics (lookup, replace-in-place on overwrite, append on fresh insert,
erase); Python lists as Lean lists with Python's signed indexing.
-/

set_option autoImplicit false

variable {K V : Type}

/-- The kind (class) of a Python exception, forgetting its arguments. -/
inductive ErrKind : Type where
  | keyError
  | indexError
  | typeError
deriving DecidableEq, Repr

/-- A Python exception as raised by the code: `KeyError` carries either the
missing key or a message string (`KeyError()` from `MutableMapping.popitem`
carries nothing); `IndexError` and `TypeError` are raised argument-free in
the paths modelled here. -/
inductive PyErr (K : Type) : Type where
  | keyError (arg : Option (K ⊕ String))
  | indexError
  | typeError
deriving Repr

/-- The exception class of an error value. -/
def PyErr.kind : PyErr K → ErrKind
  | .keyError _ => .keyError
  | .indexError => .indexError
  | .typeError => .typeError

section Dict

variable [DecidableEq K] {β : Type}

/-- Python `d.get(k)` / `d[k]` on a dict embedded as an association list:
the value of the first (and, for a genuine dict, only) entry with key `k`. -/
def dlookup : List (K × β) → K → Option β
  | [], _ => none
  | (k, v) :: rest, key => if k = key then some v else dlookup rest key

/-- Python `d[k] = v` on a dict: replace the value in place if the key is
present (keeping its position in the insertion order), else append. -/
def dinsert : List (K × β) → K → β → List (K × β)
  | [], key, val => [(key, val)]
  | (k, v) :: rest, key, val =>
      if k = key then (key, val) :: rest else (k, v) :: dinsert rest key val

/-- Python `del d[k]` on a dict: drop the first entry with key `k` (a dict
has at most one). -/
def derase : List (K × β) → K → List (K × β)
  | [], _ => []
  | (k, v) :: rest, key => if k = key then rest else (k, v) :: derase rest key

end Dict

/-- Python list read `l[i]` with an `int` index: non-negative indices from
the front, negative indices from the back, `none` standing for the
`IndexError` of an out-of-range access. -/
def pyGet {α : Type} (l : List α) (i : Int) : Option α :=
  if 0 ≤ i then l[i.toNat]?
  else if i.natAbs ≤ l.length then l[l.length - i.natAbs]? else none

/-- Python list write `l[i] = a` with an `int` index. Python raises
`IndexError` out of range; in every state satisfying the container
invariant the index is in range, and the out-of-range case (never reached
in the claims below) leaves the list unchanged. -/
def pySet {α : Type} (l : List α) (i : Int) (a : α) : List α :=
  if 0 ≤ i then l.set i.toNat a
  else if i.natAbs ≤ l.length then l.set (l.length - i.natAbs) a else l

/-- The state of a `RandomDict`: `_keys` (dict from key to slot index, an
`int` in Python), `_values` (list of `(key, value)` pairs), `last_index`. -/
structure RandomDict (K V : Type) : Type where
  keys : List (K × Int)
  values : List (K × V)
  last_index : Int

namespace RandomDict

variable [DecidableEq K]

/-- The state built by `__init__` before `self.update(*args, **kwargs)`
runs: `_keys = {}`, `_values = []`, `last_index = -1`. -/
def emptyRD : RandomDict K V := ⟨[], [], -1⟩

/-- `__setitem__`: `i = self._keys.get(key, -1)`; if `i > -1` overwrite
`self._values[i] = (key, val)`; else bump `last_index`, append
`(key, val)` to `_values` and record the index in `_keys`. -/
def setitem (d : RandomDict K V) (key : K) (val : V) : RandomDict K V :=
  let i := (dlookup d.keys key).getD (-1)
  if i > -1 then
    { d with values := pySet d.values i (key, val) }
  else
    let j := d.last_index + 1
    { keys := dinsert d.keys key j
      values := d.values ++ [(key, val)]
      last_index := j }

/-- `__delitem__`: `i = self._keys[key]` (raises `KeyError(key)` if absent,
before any mutation); pop the last `(move_key, move_val)` off `_values`
(`IndexError` on an empty list, also before any mutation); if
`i != last_index` move it into slot `i` and point `_keys[move_key]` at `i`;
decrement `last_index`; delete `key` from `_keys`. -/
def delitem (d : RandomDict K V) (key : K) :
    Except (PyErr K) (RandomDict K V) :=
  match dlookup d.keys key with
  | none => .error (.keyError (some (.inl key)))
  | some i =>
    match d.values.getLast? with
    | none => .error .indexError
    | some mkv =>
      if i ≠ d.last_index then
        .ok { keys := derase (dinsert d.keys mkv.1 i) key
              values := pySet d.values.dropLast i mkv
              last_index := d.last_index - 1 }
      else
        .ok { keys := derase d.keys key
              values := d.values.dropLast
              last_index := d.last_index - 1 }

/-- `__getitem__`: `KeyError(key)` if `key not in self._keys`, else
`self._values[self._keys[key]][1]`. -/
def getitem (d : RandomDict K V) (key : K) : Except (PyErr K) V :=
  match dlookup d.keys key with
  | none => .error (.keyError (some (.inl key)))
  | some i =>
    match pyGet d.values i with
    | none => .error .indexError
    | some kv => .ok kv.2

/-- The container as a partial map: the value `__getitem__` returns when it
succeeds, `none` when it raises. Mapping equality (`Mapping.__eq__`, which
compares `dict(self) == dict(other)`) identifies two containers exactly
when their `lookup` functions agree. -/
def lookup (d : RandomDict K V) (key : K) : Option V :=
  (d.getitem key).toOption

/-- `__len__`: `self.last_index + 1`. -/
def len (d : RandomDict K V) : Int := d.last_index + 1

/-- `random_key`: raise `KeyError("RandomDict is empty")` if `len(self) == 0`,
else return `self._values[i][0]` for the draw `i = random.randint(0,
self.last_index)`. The draw is passed as the argument `i`; `randint` is
inclusive on both ends, so the drawn values are exactly the integers in
`[0, last_index + 1) = [0, len)`. -/
def random_key (d : RandomDict K V) (i : Int) : Except (PyErr K) K :=
  if d.len = 0 then .error (.keyError (some (.inr "RandomDict is empty")))
  else
    match pyGet d.values i with
    | none => .error .indexError
    | some kv => .ok kv.1

/-- `random_value`: `self[self.random_key()]`, the draw again passed
explicitly. -/
def random_value (d : RandomDict K V) (i : Int) : Except (PyErr K) V := do
  let k ← d.random_key i
  d.getitem k

/-- `random_item`: `k = self.random_key(); return k, self[k]`. -/
def random_item (d : RandomDict K V) (i : Int) :
    Except (PyErr K) (K × V) := do
  let k ← d.random_key i
  let v ← d.getitem k
  pure (k, v)

/-- `copy`: a fresh `RandomDict` whose `_keys` is `self._keys.copy()`,
whose `_values` is the slice copy `self._values[:]`, and whose
`last_index` is `self.last_index`. -/
def copy (d : RandomDict K V) : RandomDict K V :=
  { keys := d.keys, values := d.values, last_index := d.last_index }

/-- Folding `self[key] = value` over a list of pairs, the shape shared by
every branch of `MutableMapping.update` (a mapping source is iterated in
key order, an iterable source pair by pair, keyword arguments last). -/
def setMany (d : RandomDict K V) (ps : List (K × V)) : RandomDict K V :=
  ps.foldl (fun d p => d.setitem p.1 p.2) d

/-- `MutableMapping.update(*args, **kwargs)` as inherited by `RandomDict`:
it accepts at most ONE positional source (`def update(self, other=(), /,
**kwds)`) and raises `TypeError` when called with two or more; the single
source's pairs are written first, then the keyword bindings, so later
writes win. Sources are embedded as their pair sequences. -/
def update (d : RandomDict K V) (args : List (List (K × V)))
    (kwargs : List (K × V)) : Except (PyErr K) (RandomDict K V) :=
  match args with
  | [] => .ok (setMany d kwargs)
  | [other] => .ok (setMany (setMany d other) kwargs)
  | _ => .error .typeError

/-- `__init__(*args, **kwargs)`: start from the empty state, then
`self.update(*args, **kwargs)`. -/
def init (args : List (List (K × V))) (kwargs : List (K × V)) :
    Except (PyErr K) (RandomDict K V) :=
  update emptyRD args kwargs

/-- `fromkeys(keys, value)`: build an empty `RandomDict` and assign
`rd[key] = value` for each key in order. -/
def fromkeys (ks : List K) (v : V) : RandomDict K V :=
  ks.foldl (fun d k => d.setitem k v) emptyRD

/-- `MutableMapping.popitem` as inherited: `key = next(iter(self))`
(the first key of `_keys`; `KeyError()` with no argument on an empty
container), then `value = self[key]; del self[key]; return key, value`. -/
def popitem (d : RandomDict K V) :
    Except (PyErr K) ((K × V) × RandomDict K V) :=
  match d.keys.head? with
  | none => .error (.keyError none)
  | some p => do
    let v ← d.getitem p.1
    let d2 ← d.delitem p.1
    pure ((p.1, v), d2)

/-- `MutableMapping.pop(key)` (no default supplied) as inherited:
`value = self[key]` — a `KeyError` propagates — then `del self[key]`
and return the value. -/
def pop (d : RandomDict K V) (key : K) :
    Except (PyErr K) (V × RandomDict K V) :=
  match d.getitem key with
  | .error e => .error e
  | .ok v => do
    let d2 ← d.delitem key
    pure (v, d2)

/-- The spec's sample container: `set(1,10); set(2,20); set(3,30)` on an
empty `RandomDict Nat Nat`. -/
def rdABC : RandomDict Nat Nat :=
  (((emptyRD : RandomDict Nat Nat).setitem 1 10).setitem 2 20).setitem 3 30

/-- The value the last binding of `k` in a pair sequence assigns, if any:
the reference point for last-writer-wins. -/
def lastVal [DecidableEq K] : List (K × V) → K → Option V
  | [], _ => none
  | p :: ps, k =>
      (lastVal ps k).or (if p.1 = k then some p.2 else none)

/-- The internal invariants of the container (spec I1 to I4 over this
state shape): the dict `_keys` has no duplicate keys; `last_index + 1`
is the number of entries of `_values` (so the reported length equals the
entry count, and the valid slots are exactly the contiguous range
`[0, len)` of positions of the list `_values`); `_keys` has exactly as
many keys as `_values` has entries; every key of `_keys` points at an
in-range slot holding that key; and every slot's key points back at that
slot. -/
def Inv (d : RandomDict K V) : Prop :=
  (d.keys.map Prod.fst).Nodup ∧
  d.last_index + 1 = (d.values.length : Int) ∧
  d.keys.length = d.values.length ∧
  (∀ k i, dlookup d.keys k = some i →
    ∃ v, 0 ≤ i ∧ i.toNat < d.values.length ∧
      d.values[i.toNat]? = some (k, v)) ∧
  (∀ (n : Nat) (kv : K × V), d.values[n]? = some kv →
    dlookup d.keys kv.1 = some (n : Int))

end RandomDict

/-! ### Lemmas about the embedded Python dict -/

section DictLemmas

variable [DecidableEq K] {β : Type}

theorem dlookup_dinsert_self (l : List (K × β)) (k : K) (v : β) :
    dlookup (dinsert l k v) k = some v := by
  induction l with
  | nil => simp [dinsert, dlookup]
  | cons p rest ih =>
    by_cases hp : p.1 = k
    · simp [dinsert, hp, dlookup]
    · simpa [dinsert, hp, dlookup] using ih

theorem dlookup_dinsert_ne (l : List (K × β)) {k k2 : K} {v : β}
    (h : k2 ≠ k) : dlookup (dinsert l k v) k2 = dlookup l k2 := by
  have hks : ¬ k = k2 := fun h2 => h h2.symm
  induction l with
  | nil => simp [dinsert, dlookup, hks]
  | cons p rest ih =>
    by_cases hp : p.1 = k
    · subst hp
      simp [dinsert, dlookup, hks]
    · simp [dinsert, hp, dlookup, ih]

theorem dlookup_derase_ne (l : List (K × β)) {k k2 : K} (h : k2 ≠ k) :
    dlookup (derase l k) k2 = dlookup l k2 := by
  have hks : ¬ k = k2 := fun h2 => h h2.symm
  induction l with
  | nil => simp [derase]
  | cons p rest ih =>
    by_cases hp : p.1 = k
    · subst hp
      simp [derase, dlookup, hks]
    · simp [derase, hp, dlookup, ih]

theorem dlookup_eq_none_iff (l : List (K × β)) (k : K) :
    dlookup l k = none ↔ k ∉ l.map Prod.fst := by
  induction l with
  | nil => simp [dlookup]
  | cons p rest ih =>
    by_cases hp : p.1 = k
    · simp [dlookup, hp]
    · have hks : ¬ k = p.1 := fun h2 => hp h2.symm
      simp [dlookup, hp, ih, hks]

theorem mem_fst_derase {l : List (K × β)} {k x : K}
    (h : x ∈ (derase l k).map Prod.fst) : x ∈ l.map Prod.fst := by
  induction l with
  | nil => simp [derase] at h
  | cons p rest ih =>
    by_cases hp : p.1 = k
    · simp only [derase, if_pos hp] at h
      simp [h]
    · simp only [derase, if_neg hp, List.map_cons, List.mem_cons] at h ⊢
      exact h.imp id ih

theorem nodup_fst_derase {l : List (K × β)} {k : K}
    (h : (l.map Prod.fst).Nodup) : ((derase l k).map Prod.fst).Nodup := by
  induction l with
  | nil => simp [derase]
  | cons p rest ih =>
    rw [List.map_cons, List.nodup_cons] at h
    by_cases hp : p.1 = k
    · simpa [derase, hp] using h.2
    · rw [derase, if_neg hp, List.map_cons, List.nodup_cons]
      exact ⟨fun hm => h.1 (mem_fst_derase hm), ih h.2⟩

theorem dlookup_derase_self (l : List (K × β)) (k : K)
    (h : (l.map Prod.fst).Nodup) : dlookup (derase l k) k = none := by
  induction l with
  | nil => simp [derase, dlookup]
  | cons p rest ih =>
    rw [List.map_cons, List.nodup_cons] at h
    by_cases hp : p.1 = k
    · subst hp
      rw [derase, if_pos rfl, dlookup_eq_none_iff]
      exact h.1
    · rw [derase, if_neg hp, dlookup, if_neg hp]
      exact ih h.2

theorem length_derase_present {l : List (K × β)} {k : K} {v : β}
    (h : dlookup l k = some v) : (derase l k).length + 1 = l.length := by
  induction l with
  | nil => simp [dlookup] at h
  | cons p rest ih =>
    by_cases hp : p.1 = k
    · simp [derase, hp]
    · rw [dlookup, if_neg hp] at h
      simpa [derase, hp] using ih h

theorem dinsert_absent {l : List (K × β)} {k : K} (v : β)
    (h : dlookup l k = none) : dinsert l k v = l ++ [(k, v)] := by
  induction l with
  | nil => simp [dinsert]
  | cons p rest ih =>
    by_cases hp : p.1 = k
    · rw [dlookup, if_pos hp] at h
      cases h
    · rw [dlookup, if_neg hp] at h
      simp [dinsert, hp, ih h]

theorem mapfst_dinsert_present {l : List (K × β)} {k : K} {v0 : β} (v : β)
    (h : dlookup l k = some v0) :
    (dinsert l k v).map Prod.fst = l.map Prod.fst := by
  induction l with
  | nil => simp [dlookup] at h
  | cons p rest ih =>
    by_cases hp : p.1 = k
    · simp [dinsert, hp]
    · rw [dlookup, if_neg hp] at h
      simp [dinsert, hp, ih h]

theorem length_dinsert_present {l : List (K × β)} {k : K} {v0 : β} (v : β)
    (h : dlookup l k = some v0) : (dinsert l k v).length = l.length := by
  have := congrArg List.length (mapfst_dinsert_present v h)
  simpa using this

end DictLemmas

/-! ### Lemmas about Python list indexing -/

theorem pyGet_nonneg {α : Type} (l : List α) {i : Int} (h : 0 ≤ i) :
    pyGet l i = l[i.toNat]? := by
  simp [pyGet, h]

theorem pySet_nonneg {α : Type} (l : List α) {i : Int} (h : 0 ≤ i) (a : α) :
    pySet l i a = l.set i.toNat a := by
  simp [pySet, h]

theorem pyGet_eq_some {α : Type} {l : List α} {i : Int} {e : α}
    (h : pyGet l i = some e) : ∃ n : Nat, n < l.length ∧ l[n]? = some e := by
  unfold pyGet at h
  split at h
  · exact ⟨i.toNat, (List.getElem?_eq_some_iff.mp h).1, h⟩
  · split at h
    · exact ⟨l.length - i.natAbs, (List.getElem?_eq_some_iff.mp h).1, h⟩
    · cases h

/-! ### Branch lemmas for the container operations -/

namespace RandomDict

variable [DecidableEq K]

theorem setitem_present {d : RandomDict K V} {key : K} {i : Int}
    (h : dlookup d.keys key = some i) (hi : 0 ≤ i) (val : V) :
    d.setitem key val = { d with values := pySet d.values i (key, val) } := by
  simp only [setitem, h, Option.getD_some]
  rw [if_pos (by omega : i > -1)]

theorem setitem_absent {d : RandomDict K V} {key : K}
    (h : dlookup d.keys key = none) (val : V) :
    d.setitem key val =
      { keys := dinsert d.keys key (d.last_index + 1)
        values := d.values ++ [(key, val)]
        last_index := d.last_index + 1 } := by
  simp only [setitem, h, Option.getD_none]
  rw [if_neg (by omega : ¬ (-1 : Int) > -1)]

theorem delitem_absent {d : RandomDict K V} {key : K}
    (h : dlookup d.keys key = none) :
    d.delitem key = .error (.keyError (some (.inl key))) := by
  simp [delitem, h]

theorem delitem_present_move {d : RandomDict K V} {key : K} {i : Int}
    {mkv : K × V} (h : dlookup d.keys key = some i)
    (hlast : d.values.getLast? = some mkv) (hne : i ≠ d.last_index) :
    d.delitem key =
      .ok { keys := derase (dinsert d.keys mkv.1 i) key
            values := pySet d.values.dropLast i mkv
            last_index := d.last_index - 1 } := by
  simp [delitem, h, hlast, hne]

theorem delitem_present_last {d : RandomDict K V} {key : K}
    {mkv : K × V} (h : dlookup d.keys key = some d.last_index)
    (hlast : d.values.getLast? = some mkv) :
    d.delitem key =
      .ok { keys := derase d.keys key
            values := d.values.dropLast
            last_index := d.last_index - 1 } := by
  simp [delitem, h, hlast]

theorem getitem_absent {d : RandomDict K V} {key : K}
    (h : dlookup d.keys key = none) :
    d.getitem key = .error (.keyError (some (.inl key))) := by
  simp [getitem, h]

theorem lookup_absent {d : RandomDict K V} {key : K}
    (h : dlookup d.keys key = none) : d.lookup key = none := by
  simp [lookup, getitem_absent h, Except.toOption]

/-! ### Facts that follow from the invariant -/

theorem inv_index_inj {d : RandomDict K V} (h : d.Inv) {k1 k2 : K} {i : Int}
    (h1 : dlookup d.keys k1 = some i) (h2 : dlookup d.keys k2 = some i) :
    k1 = k2 := by
  obtain ⟨-, -, -, h4, -⟩ := h
  obtain ⟨v1, -, -, hg1⟩ := h4 k1 i h1
  obtain ⟨v2, -, -, hg2⟩ := h4 k2 i h2
  rw [hg1] at hg2
  exact (Prod.mk.injEq _ _ _ _ ▸ Option.some_inj.mp hg2).1

theorem inv_lookup_present {d : RandomDict K V} (h : d.Inv) {key : K}
    {i : Int} (hk : dlookup d.keys key = some i) :
    ∃ v, d.getitem key = .ok v ∧ d.lookup key = some v ∧
      d.values[i.toNat]? = some (key, v) := by
  obtain ⟨-, -, -, h4, -⟩ := h
  obtain ⟨v, hi0, hilt, hget⟩ := h4 key i hk
  refine ⟨v, ?_, ?_, hget⟩
  · simp [getitem, hk, pyGet_nonneg _ hi0, hget]
  · simp [lookup, getitem, hk, pyGet_nonneg _ hi0, hget, Except.toOption]

theorem inv_lookup_eq_none_iff {d : RandomDict K V} (h : d.Inv) {key : K} :
    d.lookup key = none ↔ dlookup d.keys key = none := by
  constructor
  · intro hl
    cases hk : dlookup d.keys key with
    | none => rfl
    | some i =>
      obtain ⟨v, -, hv, -⟩ := inv_lookup_present h hk
      rw [hl] at hv
      cases hv
  · exact lookup_absent

/-- `setitem` preserves the invariant. -/
theorem inv_setitem (d : RandomDict K V) (key : K) (val : V) (h : d.Inv) :
    (d.setitem key val).Inv := by
  obtain ⟨hnd, hli, hkl, h4, h5⟩ := h
  cases hdl : dlookup d.keys key with
  | some i =>
    obtain ⟨v0, hi0, hilt, hget⟩ := h4 key i hdl
    rw [setitem_present hdl hi0 val, pySet_nonneg _ hi0]
    refine ⟨hnd, by simpa using hli, by simpa using hkl, ?_, ?_⟩
    · intro k j hj
      obtain ⟨w, hj0, hjlt, hjget⟩ := h4 k j hj
      by_cases hji : j.toNat = i.toNat
      · have hjieq : j = i := by omega
        subst hjieq
        rw [hget] at hjget
        have hk : k = key := ((Prod.mk.injEq _ _ _ _ ▸
          Option.some_inj.mp hjget).1).symm
        subst hk
        exact ⟨val, hj0, by simpa using hjlt,
          by rw [List.getElem?_set_self (by simpa using hjlt)]⟩
      · exact ⟨w, hj0, by simpa using hjlt,
          by rw [List.getElem?_set_ne (fun he => hji he.symm)]; exact hjget⟩
    · intro n kv hn
      by_cases hni : n = i.toNat
      · subst hni
        rw [List.getElem?_set_self hilt] at hn
        cases Option.some_inj.mp hn
        simpa [Int.toNat_of_nonneg hi0] using hdl
      · rw [List.getElem?_set_ne (fun he => hni he.symm)] at hn
        exact h5 n kv hn
  | none =>
    have hkey_notin : key ∉ d.keys.map Prod.fst :=
      (dlookup_eq_none_iff _ _).mp hdl
    rw [setitem_absent hdl val]
    unfold Inv
    dsimp only
    refine ⟨?_, ?_, ?_, ?_, ?_⟩
    · rw [dinsert_absent _ hdl]
      simp [List.nodup_append, hnd, hkey_notin]
    · simp only [List.length_append, List.length_cons, List.length_nil]
      push_cast
      omega
    · have := congrArg List.length (dinsert_absent (d.last_index + 1) hdl)
      simp only [List.length_append, List.length_cons, List.length_nil]
        at this ⊢
      omega
    · intro k j hj
      by_cases hk : k = key
      · subst hk
        rw [dlookup_dinsert_self] at hj
        have hjeq : d.last_index + 1 = j := Option.some_inj.mp hj
        have hj0 : (0:Int) ≤ j := by omega
        have htn : j.toNat = d.values.length := by omega
        refine ⟨val, hj0, ?_, ?_⟩
        · simp only [List.length_append, List.length_cons, List.length_nil]
          omega
        · rw [htn, List.getElem?_concat_length]
      · rw [dlookup_dinsert_ne _ hk] at hj
        obtain ⟨w, hj0, hjlt, hjget⟩ := h4 k j hj
        refine ⟨w, hj0, ?_, ?_⟩
        · simp only [List.length_append, List.length_cons, List.length_nil]
          omega
        · rw [List.getElem?_append_left hjlt]
          exact hjget
    · intro n kv hn
      by_cases hnlt : n < d.values.length
      · rw [List.getElem?_append_left hnlt] at hn
        have hd := h5 n kv hn
        have hne : kv.1 ≠ key := by
          intro he
          rw [he, hdl] at hd
          cases hd
        rw [dlookup_dinsert_ne _ hne]
        exact hd
      · have hlen : n < d.values.length + 1 := by
          have := (List.getElem?_eq_some_iff.mp hn).1
          simpa using this
        have hneq : n = d.values.length := by omega
        subst hneq
        rw [List.getElem?_concat_length] at hn
        cases Option.some_inj.mp hn
        rw [dlookup_dinsert_self]
        congr 1

end RandomDict

namespace RandomDict

variable [DecidableEq K]

/-- The empty state satisfies the invariant. -/
theorem inv_empty : (emptyRD : RandomDict K V).Inv := by
  refine ⟨by simp [emptyRD], by simp [emptyRD], by simp [emptyRD], ?_, ?_⟩
  · intro k i hk
    simp [emptyRD, dlookup] at hk
  · intro n kv hn
    simp [emptyRD] at hn

/-- `copy` preserves the invariant (it reproduces the state verbatim). -/
theorem inv_copy {d : RandomDict K V} (h : d.Inv) : d.copy.Inv := h

/-- `delitem` preserves the invariant whenever it succeeds. -/
theorem inv_delitem {d : RandomDict K V} {key : K} {d2 : RandomDict K V}
    (h : d.Inv) (hdel : d.delitem key = .ok d2) : d2.Inv := by
  have hinj : ∀ k1 k2 i0, dlookup d.keys k1 = some i0 →
      dlookup d.keys k2 = some i0 → k1 = k2 :=
    fun _ _ _ h1 h2 => inv_index_inj h h1 h2
  obtain ⟨hnd, hli, hkl, h4, h5⟩ := h
  cases hdl : dlookup d.keys key with
  | none =>
    rw [delitem_absent hdl] at hdel
    cases hdel
  | some i =>
    obtain ⟨vk, hi0, hilt, hget⟩ := h4 key i hdl
    have hL1 : 1 ≤ d.values.length := by omega
    cases hlast : d.values.getLast? with
    | none =>
      rw [List.getLast?_eq_getElem?] at hlast
      rw [List.getElem?_eq_none_iff] at hlast
      omega
    | some mkv =>
      have hlastget : d.values[d.values.length - 1]? = some mkv := by
        rw [← List.getLast?_eq_getElem?]
        exact hlast
      have hmk : dlookup d.keys mkv.1 =
          some ((d.values.length - 1 : Nat) : Int) := h5 _ _ hlastget
      have hcast : ((d.values.length - 1 : Nat) : Int) = d.last_index := by
        omega
      rw [hcast] at hmk
      by_cases hieq : i = d.last_index
      · subst hieq
        rw [delitem_present_last hdl hlast] at hdel
        cases hdel
        have hkey_mk : key = mkv.1 := hinj _ _ _ hdl hmk
        refine ⟨nodup_fst_derase hnd, ?_, ?_, ?_, ?_⟩
        · simp only [List.length_dropLast]
          omega
        · have := length_derase_present hdl
          simp only [List.length_dropLast]
          omega
        · intro k j hj
          have hkne : k ≠ key := by
            rintro rfl
            rw [dlookup_derase_self _ _ hnd] at hj
            cases hj
          rw [dlookup_derase_ne _ hkne] at hj
          obtain ⟨w, hj0, hjlt, hjget⟩ := h4 k j hj
          have hjne : j ≠ d.last_index := by
            intro he
            exact hkne (hinj _ _ _ hj (he ▸ hdl))
          have hjlt2 : j.toNat < d.values.length - 1 := by omega
          refine ⟨w, hj0, by simpa using hjlt2, ?_⟩
          rw [List.dropLast_eq_take, List.getElem?_take_of_lt hjlt2]
          exact hjget
        · intro n kv hn
          have hnlt : n < d.values.length - 1 := by
            have := (List.getElem?_eq_some_iff.mp hn).1
            simpa using this
          rw [List.dropLast_eq_take, List.getElem?_take_of_lt hnlt] at hn
          have hd := h5 n kv hn
          have hne : kv.1 ≠ key := by
            intro he
            rw [he, hdl] at hd
            have : (n : Int) = d.last_index := (Option.some_inj.mp hd).symm
            omega
          rw [dlookup_derase_ne _ hne]
          exact hd
      · rw [delitem_present_move hdl hlast hieq] at hdel
        cases hdel
        have hmkkey : mkv.1 ≠ key := by
          intro he
          rw [he, hdl] at hmk
          exact hieq (Option.some_inj.mp hmk)
        have hilt2 : i.toNat < d.values.length - 1 := by omega
        have hnd2 : ((dinsert d.keys mkv.1 i).map Prod.fst).Nodup := by
          rw [mapfst_dinsert_present i hmk]
          exact hnd
        have hkeyin : dlookup (dinsert d.keys mkv.1 i) key = some i := by
          rw [dlookup_dinsert_ne _ (fun he => hmkkey he.symm)]
          exact hdl
        rw [pySet_nonneg _ hi0]
        refine ⟨nodup_fst_derase hnd2, ?_, ?_, ?_, ?_⟩
        · simp only [List.length_set, List.length_dropLast]
          omega
        · have h1 := length_derase_present hkeyin
          have h2 := length_dinsert_present i hmk
          simp only [List.length_set, List.length_dropLast]
          omega
        · intro k j hj
          have hkne : k ≠ key := by
            rintro rfl
            rw [dlookup_derase_self _ _ hnd2] at hj
            cases hj
          rw [dlookup_derase_ne _ hkne] at hj
          by_cases hkmk : k = mkv.1
          · subst hkmk
            rw [dlookup_dinsert_self] at hj
            have hji : i = j := Option.some_inj.mp hj
            subst hji
            refine ⟨mkv.2, hi0, ?_, ?_⟩
            · simp only [List.length_set, List.length_dropLast]
              omega
            · rw [List.getElem?_set_self
                (by simp only [List.length_dropLast]; omega)]
          · rw [dlookup_dinsert_ne _ hkmk] at hj
            obtain ⟨w, hj0, hjlt, hjget⟩ := h4 k j hj
            have hjni : j ≠ i := by
              intro he
              exact hkne (hinj _ _ _ hj (he ▸ hdl))
            have hjnl : j ≠ d.last_index := by
              intro he
              exact hkmk (hinj _ _ _ hj (he ▸ hmk))
            have hjlt2 : j.toNat < d.values.length - 1 := by omega
            refine ⟨w, hj0, ?_, ?_⟩
            · simp only [List.length_set, List.length_dropLast]
              omega
            · rw [List.getElem?_set_ne (by omega : i.toNat ≠ j.toNat)]
              rw [List.dropLast_eq_take, List.getElem?_take_of_lt hjlt2]
              exact hjget
        · intro n kv hn
          have hnlt : n < d.values.length - 1 := by
            have := (List.getElem?_eq_some_iff.mp hn).1
            simpa using this
          by_cases hni : n = i.toNat
          · subst hni
            rw [List.getElem?_set_self
              (by simp only [List.length_dropLast]; omega)] at hn
            cases Option.some_inj.mp hn
            rw [dlookup_derase_ne _ (fun he => hmkkey he)]
            rw [dlookup_dinsert_self]
            congr 1
            omega
          · rw [List.getElem?_set_ne (by omega : i.toNat ≠ n)] at hn
            rw [List.dropLast_eq_take, List.getElem?_take_of_lt hnlt] at hn
            have hd := h5 n kv hn
            have hne : kv.1 ≠ key := by
              intro he
              rw [he, hdl] at hd
              have : (n : Int) = i := (Option.some_inj.mp hd).symm
              omega
            have hne2 : kv.1 ≠ mkv.1 := by
              intro he
              rw [he, hmk] at hd
              have : (n : Int) = d.last_index := (Option.some_inj.mp hd).symm
              omega
            rw [dlookup_derase_ne _ hne, dlookup_dinsert_ne _ hne2]
            exact hd

end RandomDict

namespace RandomDict

variable [DecidableEq K]

/-- After `setitem`, looking up the written key yields the written value. -/
theorem getitem_setitem_self {d : RandomDict K V} (h : d.Inv) (key : K)
    (val : V) : (d.setitem key val).getitem key = .ok val := by
  obtain ⟨hnd, hli, hkl, h4, h5⟩ := h
  cases hdl : dlookup d.keys key with
  | some i =>
    obtain ⟨v0, hi0, hilt, hget⟩ := h4 key i hdl
    rw [setitem_present hdl hi0 val, pySet_nonneg _ hi0]
    simp [getitem, hdl, pyGet_nonneg _ hi0, List.getElem?_set_self hilt]
  | none =>
    rw [setitem_absent hdl val]
    have h0 : (0:Int) ≤ d.last_index + 1 := by omega
    have htn : (d.last_index + 1).toNat = d.values.length := by omega
    simp [getitem, dlookup_dinsert_self, pyGet_nonneg _ h0, htn,
      List.getElem?_concat_length]

/-- `setitem` leaves every other key's `getitem` result unchanged. -/
theorem getitem_setitem_ne {d : RandomDict K V} (h : d.Inv) {key k2 : K}
    (hne : k2 ≠ key) (val : V) :
    (d.setitem key val).getitem k2 = d.getitem k2 := by
  have hinj : ∀ k1 k3 i0, dlookup d.keys k1 = some i0 →
      dlookup d.keys k3 = some i0 → k1 = k3 :=
    fun _ _ _ h1 h2 => inv_index_inj h h1 h2
  obtain ⟨hnd, hli, hkl, h4, h5⟩ := h
  cases hdl : dlookup d.keys key with
  | some i =>
    obtain ⟨v0, hi0, hilt, hget⟩ := h4 key i hdl
    rw [setitem_present hdl hi0 val, pySet_nonneg _ hi0]
    cases hdl2 : dlookup d.keys k2 with
    | none => simp [getitem, hdl2]
    | some j =>
      obtain ⟨w, hj0, hjlt, hjget⟩ := h4 k2 j hdl2
      have hji : j ≠ i := fun he => hne (hinj _ _ _ hdl2 (he ▸ hdl))
      have hnn : i.toNat ≠ j.toNat := by omega
      simp [getitem, hdl2, pyGet_nonneg _ hj0, List.getElem?_set_ne hnn]
  | none =>
    rw [setitem_absent hdl val]
    cases hdl2 : dlookup d.keys k2 with
    | none =>
      simp [getitem, dlookup_dinsert_ne _ hne, hdl2]
    | some j =>
      obtain ⟨w, hj0, hjlt, hjget⟩ := h4 k2 j hdl2
      simp [getitem, dlookup_dinsert_ne _ hne, hdl2, pyGet_nonneg _ hj0,
        List.getElem?_append_left hjlt]

/-- Overwriting an existing key changes neither the length nor the
`_keys` dict (in particular the key's slot position is untouched). -/
theorem setitem_present_same_len {d : RandomDict K V} {key : K} {i : Int}
    (hdl : dlookup d.keys key = some i) (hi0 : 0 ≤ i) (val : V) :
    (d.setitem key val).len = d.len ∧ (d.setitem key val).keys = d.keys := by
  rw [setitem_present hdl hi0 val]
  exact ⟨rfl, rfl⟩

/-- Inserting a fresh key grows the length by exactly one. -/
theorem setitem_absent_len {d : RandomDict K V} {key : K}
    (hdl : dlookup d.keys key = none) (val : V) :
    (d.setitem key val).len = d.len + 1 := by
  rw [setitem_absent hdl val]
  simp [len]

/-- On a non-empty invariant-respecting container, a draw `i` in
`[0, len)` makes `random_key` return the key stored in slot `i`. -/
theorem random_key_at {d : RandomDict K V} (h : d.Inv) {i : Int}
    (h0 : 0 ≤ i) (hlt : i < d.len) :
    ∃ kv, d.values[i.toNat]? = some kv ∧ d.random_key i = .ok kv.1 := by
  obtain ⟨hnd, hli, hkl, h4, h5⟩ := h
  have hlen : d.len = (d.values.length : Int) := by
    simp only [len]
    omega
  have hlt2 : i.toNat < d.values.length := by omega
  obtain ⟨kv, hkv⟩ : ∃ kv, d.values[i.toNat]? = some kv := by
    rw [List.getElem?_eq_getElem hlt2]
    exact ⟨_, rfl⟩
  have hne : ¬ d.len = 0 := by omega
  refine ⟨kv, hkv, ?_⟩
  simp [random_key, hne, pyGet_nonneg _ h0, hkv]

/-- Every present key is the result of `random_key` for some draw in
`[0, len)`: the key's own slot index. -/
theorem random_key_of_present {d : RandomDict K V} (h : d.Inv) {key : K}
    {i : Int} (hdl : dlookup d.keys key = some i) :
    0 ≤ i ∧ i < d.len ∧ d.random_key i = .ok key := by
  obtain ⟨hnd, hli, hkl, h4, h5⟩ := h
  obtain ⟨v, hi0, hilt, hget⟩ := h4 key i hdl
  have hne : ¬ d.len = 0 := by
    simp only [len]
    omega
  refine ⟨hi0, by simp only [len]; omega, ?_⟩
  simp [random_key, hne, pyGet_nonneg _ hi0, hget]

end RandomDict

namespace RandomDict

variable [DecidableEq K]

/-- Deleting a present key succeeds, removes the key from `_keys`, and
shrinks the length by exactly one. -/
theorem delitem_ok {d : RandomDict K V} {key : K} {i : Int} (h : d.Inv)
    (hdl : dlookup d.keys key = some i) :
    ∃ d2, d.delitem key = .ok d2 ∧ dlookup d2.keys key = none ∧
      d2.len = d.len - 1 := by
  obtain ⟨hnd, hli, hkl, h4, h5⟩ := h
  obtain ⟨vk, hi0, hilt, hget⟩ := h4 key i hdl
  have hL1 : 1 ≤ d.values.length := by omega
  cases hlast : d.values.getLast? with
  | none =>
    rw [List.getLast?_eq_getElem?, List.getElem?_eq_none_iff] at hlast
    omega
  | some mkv =>
    have hlastget : d.values[d.values.length - 1]? = some mkv := by
      rw [← List.getLast?_eq_getElem?]
      exact hlast
    have hmk : dlookup d.keys mkv.1 =
        some ((d.values.length - 1 : Nat) : Int) := h5 _ _ hlastget
    by_cases hieq : i = d.last_index
    · subst hieq
      refine ⟨_, delitem_present_last hdl hlast, ?_, ?_⟩
      · exact dlookup_derase_self _ _ hnd
      · simp only [len]
        omega
    · have hnd2 : ((dinsert d.keys mkv.1 i).map Prod.fst).Nodup := by
        have hcast : ((d.values.length - 1 : Nat) : Int) = d.last_index := by
          omega
        rw [mapfst_dinsert_present i (hcast ▸ hmk)]
        exact hnd
      refine ⟨_, delitem_present_move hdl hlast hieq, ?_, ?_⟩
      · exact dlookup_derase_self _ _ hnd2
      · simp only [len]
        omega


/-- Frame property of deletion: removing `key` leaves the `getitem`
result of every other key unchanged, including for the relocated last
entry's key. -/
theorem getitem_delitem_ne {d d2 : RandomDict K V} {key : K} (h : d.Inv)
    (hdel : d.delitem key = .ok d2) {k2 : K} (hne : k2 ≠ key) :
    d2.getitem k2 = d.getitem k2 := by
  have hinj : ∀ k1 k3 i0, dlookup d.keys k1 = some i0 →
      dlookup d.keys k3 = some i0 → k1 = k3 :=
    fun _ _ _ h1 h2 => inv_index_inj h h1 h2
  obtain ⟨hnd, hli, hkl, h4, h5⟩ := h
  cases hdl : dlookup d.keys key with
  | none =>
    rw [delitem_absent hdl] at hdel
    cases hdel
  | some i =>
    obtain ⟨vk, hi0, hilt, hget⟩ := h4 key i hdl
    have hL1 : 1 ≤ d.values.length := by omega
    cases hlast : d.values.getLast? with
    | none =>
      rw [List.getLast?_eq_getElem?, List.getElem?_eq_none_iff] at hlast
      omega
    | some mkv =>
      have hlastget : d.values[d.values.length - 1]? = some mkv := by
        rw [← List.getLast?_eq_getElem?]
        exact hlast
      have hmk : dlookup d.keys mkv.1 =
          some ((d.values.length - 1 : Nat) : Int) := h5 _ _ hlastget
      have hcast : ((d.values.length - 1 : Nat) : Int) = d.last_index := by
        omega
      rw [hcast] at hmk
      by_cases hieq : i = d.last_index
      · subst hieq
        rw [delitem_present_last hdl hlast] at hdel
        cases hdel
        cases hdl2 : dlookup d.keys k2 with
        | none =>
          simp [getitem, dlookup_derase_ne _ hne, hdl2]
        | some j =>
          obtain ⟨w, hj0, hjlt, hjget⟩ := h4 k2 j hdl2
          have hjne : j ≠ d.last_index := by
            intro he
            exact hne (hinj _ _ _ hdl2 (he ▸ hdl))
          have hjlt2 : j.toNat < d.values.length - 1 := by omega
          have htake : d.values.dropLast[j.toNat]? = d.values[j.toNat]? := by
            rw [List.dropLast_eq_take, List.getElem?_take_of_lt hjlt2]
          simp [getitem, dlookup_derase_ne _ hne, hdl2,
            pyGet_nonneg _ hj0, htake]
      · rw [delitem_present_move hdl hlast hieq] at hdel
        cases hdel
        have hmkkey : mkv.1 ≠ key := by
          intro he
          rw [he, hdl] at hmk
          exact hieq (Option.some_inj.mp hmk)
        have hilt2 : i.toNat < d.values.length - 1 := by omega
        by_cases hkmk : k2 = mkv.1
        · have hdl2 : dlookup d.keys k2 = some d.last_index := by
            rw [hkmk]
            exact hmk
          have hlk : dlookup (derase (dinsert d.keys mkv.1 i) key) k2
              = some i := by
            rw [dlookup_derase_ne _ hne, hkmk, dlookup_dinsert_self]
          have hset : ((d.values.dropLast).set i.toNat mkv)[i.toNat]?
              = some mkv :=
            List.getElem?_set_self
              (by simp only [List.length_dropLast]; omega)
          have hmget : d.values[d.last_index.toNat]? = some mkv := by
            have he : d.last_index.toNat = d.values.length - 1 := by omega
            rw [he]
            exact hlastget
          have hmk0 : (0:Int) ≤ d.last_index := by omega
          simp [getitem, hlk, hdl2, pySet_nonneg _ hi0, pyGet_nonneg _ hi0,
            pyGet_nonneg _ hmk0, hset, hmget]
        · cases hdl2 : dlookup d.keys k2 with
          | none =>
            have hlk : dlookup (derase (dinsert d.keys mkv.1 i) key) k2
                = none := by
              rw [dlookup_derase_ne _ hne, dlookup_dinsert_ne _ hkmk, hdl2]
            simp [getitem, hlk, hdl2]
          | some j =>
            obtain ⟨w, hj0, hjlt, hjget⟩ := h4 k2 j hdl2
            have hlk : dlookup (derase (dinsert d.keys mkv.1 i) key) k2
                = some j := by
              rw [dlookup_derase_ne _ hne, dlookup_dinsert_ne _ hkmk, hdl2]
            have hjni : j ≠ i := by
              intro he
              exact hne (hinj _ _ _ hdl2 (he ▸ hdl))
            have hjnl : j ≠ d.last_index := by
              intro he
              exact hkmk (hinj _ _ _ hdl2 (he ▸ hmk))
            have hjlt2 : j.toNat < d.values.length - 1 := by omega
            have hgetd : ((d.values.dropLast).set i.toNat mkv)[j.toNat]?
                = some (k2, w) := by
              rw [List.getElem?_set_ne (by omega : i.toNat ≠ j.toNat),
                List.dropLast_eq_take, List.getElem?_take_of_lt hjlt2]
              exact hjget
            simp [getitem, hlk, hdl2, pySet_nonneg _ hi0,
              pyGet_nonneg _ hj0, hgetd, hjget]

end RandomDict

namespace RandomDict

variable [DecidableEq K]

/-- `setMany` (and hence every `update` path) preserves the invariant. -/
theorem inv_setMany {d : RandomDict K V} (h : d.Inv) (ps : List (K × V)) :
    (d.setMany ps).Inv := by
  induction ps generalizing d with
  | nil => exact h
  | cons p ps ih => exact ih (inv_setitem d p.1 p.2 h)

/-- Writing a list of pairs in order realises last-writer-wins: the final
`getitem` result of `k` is the value of its last binding in the list, and
falls back to the previous state when `k` is never bound. -/
theorem getitem_setMany {d : RandomDict K V} (h : d.Inv)
    (ps : List (K × V)) (k : K) :
    (d.setMany ps).getitem k =
      match lastVal ps k with
      | some v => .ok v
      | none => d.getitem k := by
  induction ps generalizing d with
  | nil => simp [setMany, lastVal]
  | cons p ps ih =>
    have hstep := ih (inv_setitem d p.1 p.2 h)
    show (setMany (d.setitem p.1 p.2) ps).getitem k = _
    rw [hstep]
    cases hlv : lastVal ps k with
    | some v => simp [lastVal, hlv, Option.or]
    | none =>
      by_cases hp : p.1 = k
      · subst hp
        simp [lastVal, hlv, Option.or, getitem_setitem_self h]
      · have hkp : k ≠ p.1 := fun he => hp he.symm
        simp [lastVal, hlv, Option.or, hp, getitem_setitem_ne h hkp]

/-- `update` and `__init__` preserve the invariant whenever they succeed. -/
theorem inv_update {d : RandomDict K V} (h : d.Inv)
    {args : List (List (K × V))} {kwargs : List (K × V)}
    {d2 : RandomDict K V} (hu : d.update args kwargs = .ok d2) :
    d2.Inv := by
  match args, hu with
  | [], hu =>
    cases hu
    exact inv_setMany h kwargs
  | [other], hu =>
    cases hu
    exact inv_setMany (inv_setMany h other) kwargs
  | a :: b :: rest, hu =>
    cases hu

/-- `fromkeys` is `setMany` over the constant-value pairing. -/
theorem fromkeys_eq_setMany (ks : List K) (v : V) :
    (fromkeys ks v : RandomDict K V) =
      setMany emptyRD (ks.map fun k => (k, v)) := by
  simp [fromkeys, setMany, List.foldl_map]

/-- The last binding in a constant-value pairing of `ks` exists exactly
for members of `ks`, with the shared value. -/
theorem lastVal_const (ks : List K) (v : V) (k : K) :
    lastVal (ks.map fun k0 => (k0, v)) k =
      if k ∈ ks then some v else none := by
  induction ks with
  | nil => simp [lastVal]
  | cons a ks ih =>
    by_cases hm : k ∈ ks
    · simp [lastVal, ih, hm, Option.or]
    · by_cases ha : a = k
      · subst ha
        simp [lastVal, ih, hm, Option.or]
      · have hka : ¬ k = a := fun he => ha he.symm
        simp [lastVal, ih, hm, Option.or, ha, hka]

end RandomDict

namespace RandomDict

variable [DecidableEq K]

/-- Under the invariant the reported length is both the number of
entries in `_values` and the number of keys in `_keys`. -/
theorem len_eq_lengths {d : RandomDict K V} (h : d.Inv) :
    d.len = (d.values.length : Int) ∧ d.len = (d.keys.length : Int) := by
  obtain ⟨-, hli, hkl, -, -⟩ := h
  simp only [len]
  omega

/-- On an empty invariant-respecting container both internal structures
are empty. -/
theorem empty_state {d : RandomDict K V} (h : d.Inv) (hlen : d.len = 0) :
    d.keys = [] ∧ d.values = [] := by
  obtain ⟨-, hli, hkl, -, -⟩ := h
  simp only [len] at hlen
  constructor
  · exact List.length_eq_zero.mp (by omega)
  · exact List.length_eq_zero.mp (by omega)

/-- `setMany` composed with `lookup`: the last write wins, with fallback
to the previous state. -/
theorem lookup_setMany {d : RandomDict K V} (h : d.Inv)
    (ps : List (K × V)) (k : K) :
    (d.setMany ps).lookup k = (lastVal ps k).or (d.lookup k) := by
  unfold lookup
  rw [getitem_setMany h]
  cases lastVal ps k <;> simp [Option.or, Except.toOption]

/-- `lookup` on the empty container misses every key. -/
theorem lookup_emptyRD (k : K) : (emptyRD : RandomDict K V).lookup k = none :=
  lookup_absent (by simp [emptyRD, dlookup])

/-- `fromkeys ks v` binds exactly the members of `ks`, each to `v`. -/
theorem lookup_fromkeys (ks : List K) (v : V) (k : K) :
    (fromkeys ks v : RandomDict K V).lookup k =
      if k ∈ ks then some v else none := by
  rw [fromkeys_eq_setMany, lookup_setMany inv_empty, lastVal_const,
    lookup_emptyRD]
  cases hm : decide (k ∈ ks) <;> simp_all [Option.or]

/-- `fromkeys` satisfies the invariant. -/
theorem inv_fromkeys (ks : List K) (v : V) :
    (fromkeys ks v : RandomDict K V).Inv := by
  rw [fromkeys_eq_setMany]
  exact inv_setMany inv_empty _

/-- The length of `fromkeys ks v` is the number of distinct keys of `ks`. -/
theorem fromkeys_len (ks : List K) (v : V) :
    (fromkeys ks v : RandomDict K V).len = (ks.dedup.length : Int) := by
  have hinv : (fromkeys ks v : RandomDict K V).Inv := inv_fromkeys ks v
  have hmem : ∀ k,
      k ∈ ((fromkeys ks v : RandomDict K V).keys.map Prod.fst) ↔
        k ∈ ks.dedup := by
    intro k
    rw [List.mem_dedup]
    constructor
    · intro hk
      by_contra hm
      have hnone : (fromkeys ks v : RandomDict K V).lookup k = none := by
        rw [lookup_fromkeys]
        simp [hm]
      rw [inv_lookup_eq_none_iff hinv, dlookup_eq_none_iff] at hnone
      exact hnone hk
    · intro hm
      by_contra hk
      have hdl : dlookup (fromkeys ks v : RandomDict K V).keys k = none :=
        (dlookup_eq_none_iff _ _).mpr hk
      have hnone := lookup_absent hdl
      rw [lookup_fromkeys] at hnone
      simp [hm] at hnone
  have hperm : List.Perm
      ((fromkeys ks v : RandomDict K V).keys.map Prod.fst) ks.dedup :=
    (List.perm_ext_iff_of_nodup hinv.1 ks.nodup_dedup).mpr hmem
  have hlen := hperm.length_eq
  obtain ⟨-, hli, hkl, -, -⟩ := hinv
  rw [List.length_map] at hlen
  simp only [len]
  omega

end RandomDict

open RandomDict

/-! ### Concrete container used by the witnesses -/

theorem rdABC_inv : rdABC.Inv :=
  inv_setitem _ _ _ (inv_setitem _ _ _ (inv_setitem _ _ _ inv_empty))

/-! ### The claims -/

/-- C1: `random_key` fails with the empty-container `KeyError` when the
count is 0; otherwise, with the uniform draw modelled as the integer
argument `i`, every draw in exactly `[0, len)` returns the key stored at
slot `i` (the draw `random.randint(0, last_index)` produces exactly these
integers), and every currently-present key is returned for some in-range
draw, regardless of the prior insert/delete history (any state satisfying
the invariant). -/
theorem c1_random_key_uniform_over_live_slots {K V : Type} [DecidableEq K]
    (d : RandomDict K V) (h : d.Inv) :
    (d.len = 0 → ∀ i : Int,
      d.random_key i =
        .error (.keyError (some (.inr "RandomDict is empty")))) ∧
    (∀ i : Int, 0 ≤ i → i < d.len →
      ∃ kv, d.values[i.toNat]? = some kv ∧ d.random_key i = .ok kv.1) ∧
    (∀ k : K, (d.lookup k).isSome →
      ∃ i : Int, 0 ≤ i ∧ i < d.len ∧ d.random_key i = .ok k) := by
  refine ⟨?_, ?_, ?_⟩
  · intro hlen i
    simp [random_key, hlen]
  · intro i h0 hlt
    exact random_key_at h h0 hlt
  · intro k hk
    cases hdl : dlookup d.keys k with
    | none =>
      rw [lookup_absent hdl] at hk
      cases hk
    | some i =>
      obtain ⟨h0, hlt, hok⟩ := random_key_of_present h hdl
      exact ⟨i, h0, hlt, hok⟩

theorem c1_witness :
    (rdABC.len = 0 → ∀ i : Int,
      rdABC.random_key i =
        .error (.keyError (some (.inr "RandomDict is empty")))) ∧
    (∀ i : Int, 0 ≤ i → i < rdABC.len →
      ∃ kv, rdABC.values[i.toNat]? = some kv ∧
        rdABC.random_key i = .ok kv.1) ∧
    (∀ k : Nat, (rdABC.lookup k).isSome →
      ∃ i : Int, 0 ≤ i ∧ i < rdABC.len ∧ rdABC.random_key i = .ok k) :=
  c1_random_key_uniform_over_live_slots rdABC rdABC_inv

/-- C2: starting from any invariant-respecting state, every public
operation yields an invariant-respecting state — construction
(`emptyRD`, `init`), `setitem`, successful `delitem`, `copy`, `update`
and `fromkeys` preserve `Inv` (and `getitem`, `len`, `random_key` are
read-only: they return values without producing a new state); moreover
the reported length equals both the number of entries in `_values` and
the number of keys in `_keys`. -/
theorem c2_invariants_preserved {K V : Type} [DecidableEq K]
    (d : RandomDict K V) (h : d.Inv) (k : K) (v : V) (ks : List K)
    (args : List (List (K × V))) (kwargs : List (K × V)) :
    (emptyRD : RandomDict K V).Inv ∧
    (d.setitem k v).Inv ∧
    (∀ d2, d.delitem k = .ok d2 → d2.Inv) ∧
    d.copy.Inv ∧
    (fromkeys ks v : RandomDict K V).Inv ∧
    (∀ d2, d.update args kwargs = .ok d2 → d2.Inv) ∧
    (∀ d2, init args kwargs = .ok d2 → d2.Inv) ∧
    d.len = (d.values.length : Int) ∧ d.len = (d.keys.length : Int) := by
  refine ⟨inv_empty, inv_setitem d k v h, ?_, inv_copy h,
    inv_fromkeys ks v, ?_, ?_, (len_eq_lengths h).1, (len_eq_lengths h).2⟩
  · intro d2 hdel
    exact inv_delitem h hdel
  · intro d2 hu
    exact inv_update h hu
  · intro d2 hu
    exact inv_update inv_empty hu

theorem c2_witness :
    (emptyRD : RandomDict Nat Nat).Inv ∧
    (rdABC.setitem 1 0).Inv ∧
    (∀ d2, rdABC.delitem 1 = .ok d2 → d2.Inv) ∧
    rdABC.copy.Inv ∧
    (fromkeys [7, 8] 0 : RandomDict Nat Nat).Inv ∧
    (∀ d2, rdABC.update [[(5, 50)]] [(6, 60)] = .ok d2 → d2.Inv) ∧
    (∀ d2, init [[(5, 50)]] [(6, 60)] = .ok d2 → d2.Inv) ∧
    rdABC.len = (rdABC.values.length : Int) ∧
    rdABC.len = (rdABC.keys.length : Int) :=
  c2_invariants_preserved rdABC rdABC_inv 1 0 [7, 8] [[(5, 50)]] [(6, 60)]

/-- C3: on an invariant-respecting container, removing a present key
succeeds, leaves the key absent and shrinks the length by exactly 1;
removing an absent key fails with `KeyError(key)` raised by the very
first statement (`i = self._keys[key]`), before any mutation — the
`.error` result carries no successor state, so the caller's container is
untouched (atomicity of the failing remove). -/
theorem c3_remove_semantics {K V : Type} [DecidableEq K]
    (d : RandomDict K V) (h : d.Inv) (k : K) :
    ((d.lookup k).isSome →
      ∃ d2, d.delitem k = .ok d2 ∧ d2.lookup k = none ∧
        d2.len = d.len - 1) ∧
    (d.lookup k = none →
      d.delitem k = .error (.keyError (some (.inl k)))) := by
  constructor
  · intro hk
    cases hdl : dlookup d.keys k with
    | none =>
      rw [lookup_absent hdl] at hk
      cases hk
    | some i =>
      obtain ⟨d2, hdel, habs, hlen⟩ := delitem_ok h hdl
      exact ⟨d2, hdel, lookup_absent habs, hlen⟩
  · intro hk
    exact delitem_absent ((inv_lookup_eq_none_iff h).mp hk)

theorem c3_witness :
    ((rdABC.lookup 2).isSome →
      ∃ d2, rdABC.delitem 2 = .ok d2 ∧ d2.lookup 2 = none ∧
        d2.len = rdABC.len - 1) ∧
    (rdABC.lookup 2 = none →
      rdABC.delitem 2 = .error (.keyError (some (.inl 2)))) :=
  c3_remove_semantics rdABC rdABC_inv 2

/-- C4: frame property of deletion — after `remove(k)` succeeds on an
invariant-respecting container, every other key's `getitem` result (and
hence its `lookup` value) is exactly what it was before: the
swap-with-last relocation changes no other key's binding. -/
theorem c4_delete_frame {K V : Type} [DecidableEq K]
    (d : RandomDict K V) (h : d.Inv) (k : K) {d2 : RandomDict K V}
    (hdel : d.delitem k = .ok d2) :
    ∀ k2, k2 ≠ k → d2.getitem k2 = d.getitem k2 ∧
      d2.lookup k2 = d.lookup k2 := by
  intro k2 hne
  have hg := getitem_delitem_ne h hdel hne
  exact ⟨hg, by simp [lookup, hg]⟩

theorem c4_witness :
    (RandomDict.mk [(2, 1), (3, 0)] [(3, 30), (2, 20)] 1).getitem 2 =
      rdABC.getitem 2 ∧
    (RandomDict.mk [(2, 1), (3, 0)] [(3, 30), (2, 20)] 1).lookup 2 =
      rdABC.lookup 2 :=
  c4_delete_frame rdABC rdABC_inv 1 (by rfl) 2 (by decide)

/-- C5: after `set(k, v)` on an invariant-respecting container,
`get(k)` returns `v`; the length grows by exactly 1 when `k` was absent,
and is unchanged when `k` was present — in the overwrite case the
`_keys` dict (hence the key's slot position) is untouched. -/
theorem c5_set_get {K V : Type} [DecidableEq K]
    (d : RandomDict K V) (h : d.Inv) (k : K) (v : V) :
    (d.setitem k v).lookup k = some v ∧
    (d.lookup k = none → (d.setitem k v).len = d.len + 1) ∧
    ((d.lookup k).isSome →
      (d.setitem k v).len = d.len ∧ (d.setitem k v).keys = d.keys) := by
  refine ⟨?_, ?_, ?_⟩
  · simp [lookup, getitem_setitem_self h k v, Except.toOption]
  · intro hk
    exact setitem_absent_len ((inv_lookup_eq_none_iff h).mp hk) v
  · intro hk
    cases hdl : dlookup d.keys k with
    | none =>
      rw [lookup_absent hdl] at hk
      cases hk
    | some i =>
      obtain ⟨-, -, -, h4, -⟩ := h
      obtain ⟨v0, hi0, -, -⟩ := h4 k i hdl
      exact setitem_present_same_len hdl hi0 v

theorem c5_witness :
    (rdABC.setitem 2 99).lookup 2 = some 99 ∧
    (rdABC.lookup 2 = none → (rdABC.setitem 2 99).len = rdABC.len + 1) ∧
    ((rdABC.lookup 2).isSome →
      (rdABC.setitem 2 99).len = rdABC.len ∧
        (rdABC.setitem 2 99).keys = rdABC.keys) :=
  c5_set_get rdABC rdABC_inv 2 99

/-- C6: `random_value` and `random_item` are derived from `random_key` —
whenever `random_key` returns `k` for a draw, `random_item` returns
`(k, get(k))` and `random_value` returns `get(k)` for that same draw
(no extra state is consulted); and on an empty container `random_key`,
`random_value`, `random_item`, the inherited `popitem` and the inherited
`pop` all fail with a `KeyError` (the code's rendering of
EmptyContainer, cf. C10). -/
theorem c6_random_derived {K V : Type} [DecidableEq K]
    (d : RandomDict K V) (h : d.Inv) (i : Int) (k0 : K) :
    (∀ k, d.random_key i = .ok k →
      ∃ v, d.getitem k = .ok v ∧ d.random_value i = .ok v ∧
        d.random_item i = .ok (k, v)) ∧
    (d.len = 0 →
      (∃ e1, d.random_key i = .error e1 ∧ e1.kind = .keyError) ∧
      (∃ e2, d.random_value i = .error e2 ∧ e2.kind = .keyError) ∧
      (∃ e3, d.random_item i = .error e3 ∧ e3.kind = .keyError) ∧
      (∃ e4, d.popitem = .error e4 ∧ e4.kind = .keyError) ∧
      (∃ e5, d.pop k0 = .error e5 ∧ e5.kind = .keyError)) := by
  constructor
  · intro k hrk
    by_cases hlen : d.len = 0
    · simp [random_key, hlen] at hrk
    · cases hget : pyGet d.values i with
      | none => simp [random_key, hlen, hget] at hrk
      | some kv =>
        have hk : kv.1 = k := by simpa [random_key, hlen, hget] using hrk
        obtain ⟨n, hnlt, hn⟩ := pyGet_eq_some hget
        have hdl := h.2.2.2.2 n kv hn
        rw [hk] at hdl
        obtain ⟨v, hgv, -, -⟩ := inv_lookup_present h hdl
        refine ⟨v, hgv, ?_, ?_⟩
        · simp [random_value, hrk, hgv, Bind.bind, Except.bind]
        · simp [random_item, hrk, hgv, Bind.bind, Except.bind,
            Pure.pure, Except.pure]
  · intro hlen
    obtain ⟨hke, hve⟩ := empty_state h hlen
    refine ⟨⟨.keyError (some (.inr "RandomDict is empty")), ?_, rfl⟩,
      ⟨.keyError (some (.inr "RandomDict is empty")), ?_, rfl⟩,
      ⟨.keyError (some (.inr "RandomDict is empty")), ?_, rfl⟩,
      ⟨.keyError none, ?_, rfl⟩,
      ⟨.keyError (some (.inl k0)), ?_, rfl⟩⟩
    · simp [random_key, hlen]
    · simp [random_value, random_key, hlen, Bind.bind, Except.bind]
    · simp [random_item, random_key, hlen, Bind.bind, Except.bind]
    · simp [popitem, hke]
    · simp [pop, getitem, hke, dlookup]

theorem c6_witness :
    (∀ k, rdABC.random_key 1 = .ok k →
      ∃ v, rdABC.getitem k = .ok v ∧ rdABC.random_value 1 = .ok v ∧
        rdABC.random_item 1 = .ok (k, v)) ∧
    (rdABC.len = 0 →
      (∃ e1, rdABC.random_key 1 = .error e1 ∧ e1.kind = .keyError) ∧
      (∃ e2, rdABC.random_value 1 = .error e2 ∧ e2.kind = .keyError) ∧
      (∃ e3, rdABC.random_item 1 = .error e3 ∧ e3.kind = .keyError) ∧
      (∃ e4, rdABC.popitem = .error e4 ∧ e4.kind = .keyError) ∧
      (∃ e5, rdABC.pop 9 = .error e5 ∧ e5.kind = .keyError)) :=
  c6_random_derived rdABC rdABC_inv 1 9

/-- C7 counterexample: the claim says construction accepts any number of
well-formed positional sources; but `__init__` forwards them to the
inherited `MutableMapping.update`, which takes at most one positional
source, so constructing from two sources fails with `TypeError`. -/
theorem c7_counterexample :
    init [[((0 : Nat), (1 : Nat))], [(0, 2)]] ([] : List (Nat × Nat)) =
      .error .typeError := rfl

/-- C7 (amended): construction accepts zero or ONE positional source
(an iterable of pairs or a mapping, embedded as its pair sequence) plus
keyword bindings; the source is written first and the keyword bindings
afterwards, so on a key collision the later write — the keyword binding,
or the last occurrence within the source — wins, matching ordinary
mapping-update semantics; construction with two or more positional
sources fails with `TypeError`. -/
theorem c7_amended_construction {K V : Type} [DecidableEq K]
    (src kwargs : List (K × V)) (s1 s2 : List (K × V))
    (rest : List (List (K × V))) (k : K) :
    (∃ d, init ([] : List (List (K × V))) kwargs = .ok d ∧
      d.lookup k = lastVal kwargs k) ∧
    (∃ d, init [src] kwargs = .ok d ∧
      d.lookup k = (lastVal kwargs k).or (lastVal src k)) ∧
    init (s1 :: s2 :: rest) kwargs = .error .typeError := by
  refine ⟨⟨_, rfl, ?_⟩, ⟨_, rfl, ?_⟩, rfl⟩
  · rw [lookup_setMany inv_empty, lookup_emptyRD, Option.or_none]
  · rw [lookup_setMany (inv_setMany inv_empty src),
      lookup_setMany inv_empty, lookup_emptyRD, Option.or_none]

/-- C8: a copy is mapping-equal to its source (same keys, same values —
slot layout is irrelevant to `lookup`), and its storage is independent:
writing a distinguishable value into the copy is visible in the copy
while the source still reports its old value, so the two containers are
no longer mapping-equal. -/
theorem c8_copy_equal_and_independent {K V : Type} [DecidableEq K]
    (d : RandomDict K V) (h : d.Inv) (k : K) (v w : V)
    (hold : d.lookup k = some w) (hne : v ≠ w) :
    (∀ k2, d.copy.lookup k2 = d.lookup k2) ∧
    (d.copy.setitem k v).lookup k = some v ∧
    d.lookup k = some w ∧
    ¬ (∀ k2, (d.copy.setitem k v).lookup k2 = d.lookup k2) := by
  have hc : d.copy = d := rfl
  have hset : (d.setitem k v).lookup k = some v := by
    simp [lookup, getitem_setitem_self h k v, Except.toOption]
  refine ⟨fun k2 => by rw [hc], by rw [hc]; exact hset, hold, ?_⟩
  intro hall
  have hk := hall k
  rw [hc, hset, hold] at hk
  exact hne (Option.some_inj.mp hk)

theorem c8_witness :
    (∀ k2, rdABC.copy.lookup k2 = rdABC.lookup k2) ∧
    (rdABC.copy.setitem 1 99).lookup 1 = some 99 ∧
    rdABC.lookup 1 = some 10 ∧
    ¬ (∀ k2, (rdABC.copy.setitem 1 99).lookup k2 = rdABC.lookup k2) :=
  c8_copy_equal_and_independent rdABC rdABC_inv 1 99 10 (by rfl)
    (by decide)

/-- C9: `fromkeys ks v` binds exactly the keys listed in `ks`, each to
the shared default `v`, and its length is the number of distinct keys in
`ks`. -/
theorem c9_fromkeys {K V : Type} [DecidableEq K] (ks : List K) (v : V) :
    (∀ k, k ∈ ks → (fromkeys ks v : RandomDict K V).lookup k = some v) ∧
    (∀ k, k ∉ ks → (fromkeys ks v : RandomDict K V).lookup k = none) ∧
    (fromkeys ks v : RandomDict K V).len = (ks.dedup.length : Int) := by
  refine ⟨?_, ?_, fromkeys_len ks v⟩
  · intro k hm
    rw [lookup_fromkeys]
    simp [hm]
  · intro k hm
    rw [lookup_fromkeys]
    simp [hm]

theorem c9_witness :
    (fromkeys ["a", "b", "c"] (0 : Nat) : RandomDict String Nat).len = 3 ∧
    ((∀ k, k ∈ ["a", "b", "c"] →
      (fromkeys ["a", "b", "c"] (0 : Nat) :
        RandomDict String Nat).lookup k = some 0) ∧
    (∀ k, k ∉ ["a", "b", "c"] →
      (fromkeys ["a", "b", "c"] (0 : Nat) :
        RandomDict String Nat).lookup k = none) ∧
    (fromkeys ["a", "b", "c"] (0 : Nat) : RandomDict String Nat).len =
      ((["a", "b", "c"] : List String).dedup.length : Int)) :=
  ⟨by rfl, c9_fromkeys ["a", "b", "c"] 0⟩

/-- C10 (implicit): the empty-container failure of `random_key` and the
missing-key failures of `getitem`/`delitem` are the same exception kind
(`KeyError`) — they differ only in the attached argument (a message
string versus the key), so no caller can tell EmptyContainer from
KeyNotFound by the exception class alone. -/
theorem c10_same_error_kind {K V : Type} [DecidableEq K]
    (d : RandomDict K V) (k : K) (i : Int) (hlen : d.len = 0)
    (habs : dlookup d.keys k = none) :
    ∃ e1 e2 e3, d.random_key i = .error e1 ∧ d.getitem k = .error e2 ∧
      d.delitem k = .error e3 ∧
      e1.kind = .keyError ∧ e2.kind = .keyError ∧ e3.kind = .keyError ∧
      e2 = e3 ∧ e1 ≠ e2 := by
  refine ⟨.keyError (some (.inr "RandomDict is empty")),
    .keyError (some (.inl k)), .keyError (some (.inl k)),
    by simp [random_key, hlen], getitem_absent habs, delitem_absent habs,
    rfl, rfl, rfl, rfl, ?_⟩
  intro he
  simp at he

theorem c10_witness :
    ∃ e1 e2 e3,
      (emptyRD : RandomDict Nat Nat).random_key 0 = .error e1 ∧
      (emptyRD : RandomDict Nat Nat).getitem 5 = .error e2 ∧
      (emptyRD : RandomDict Nat Nat).delitem 5 = .error e3 ∧
      e1.kind = .keyError ∧ e2.kind = .keyError ∧ e3.kind = .keyError ∧
      e2 = e3 ∧ e1 ≠ e2 :=
  c10_same_error_kind emptyRD 5 0 (by rfl) (by rfl)
